import Mathlib

/-!
Shallow embedding of `github_repo_finder.py` (class `GitHubRepoFinder`).

The GitHub provider is modelled as pure data passed in explicitly:
a search call is a function `String → Except Unit (List JHit)` (the
`Except.error` case models a raised exception), and the per-repository
enrichment sub-fetches (`get_contributors`, `get_commits`, `license`,
last-commit lookup) are bundled in a `Fetchers` record whose `none` /
`Except.error` results model the exceptions swallowed by the
`try/except` blocks of the source.  Date-derived fields of the result
dictionaries (`created_at`, `age_years`, `last_updated`) are clock- and
float-dependent and are not modelled; `last_commit_date` is modelled as
the already-formatted string supplied by the provider.
-/

/-- Characters of a string, each lowered - models Python `s.lower()`
on the character-list view used by the proofs. -/
def lowerStr (s : String) : List Char := s.toList.map Char.toLower

/-- Substring test on character lists - models Python `needle in hay`
for strings. -/
def containsSub (needle : List Char) : List Char → Bool
  | [] => needle.isEmpty
  | c :: rest => needle.isPrefixOf (c :: rest) || containsSub needle rest

/-- `spanFree a b` holds when no splitting of `a` into two nonempty
parts has its second part a prefix of `b`; appending `b` to a text can
then never complete a new occurrence of `a` across the junction. -/
def spanFree (a b : List Char) : Bool :=
  (List.range a.length).all (fun i => i == 0 || !((a.drop i).isPrefixOf b))

/-- Decimal digit character, `digitChar 3 = '3'` for `d < 10`. -/
def digitChar (d : Nat) : Char := Char.ofNat (48 + d)

/-- Fuel-driven decimal rendering of a natural number. -/
def natDigitsAux : Nat → Nat → List Char
  | 0, _ => []
  | fuel + 1, n => if n < 10 then [digitChar n] else natDigitsAux fuel (n / 10) ++ [digitChar (n % 10)]

/-- Decimal rendering of a natural number - models Python `f"{n}"`. -/
def natRepr (n : Nat) : String := ⟨natDigitsAux (n + 1) n⟩

/-- Decimal rendering of an integer - models Python `f"{n}"` for `int`. -/
def intRepr (n : Int) : String := if n < 0 then "-" ++ natRepr n.natAbs else natRepr n.toNat

/-- Number of (non-overlapping, two-character) occurrences of `"OR"`
in a character list; the queries built by the source use `" OR "`
exclusively as the boolean operator, so this counts OR operators. -/
def countORAux : List Char → Nat
  | [] => 0
  | [_] => 0
  | a :: b :: rest => (if a = 'O' ∧ b = 'R' then 1 else 0) + countORAux (b :: rest)

/-- Python falsy-string coalescing `s or dflt` (both `None` and `""`
are falsy). -/
def pyStrOr (s : Option String) (dflt : String) : String :=
  match s with
  | some v => if v = "" then dflt else v
  | none => dflt

/-- Raw repository data as returned by a provider search hit
(`repo.full_name`, `repo.description`, ...). -/
structure JHit where
  fullName : String
  description : Option String
  stargazersCount : Nat
  forksCount : Nat
  language : Option String
  topics : List String
  htmlUrl : String
  size : Nat
  openIssuesCount : Nat
  defaultBranch : String
deriving DecidableEq

/-- Result of the last-commit lookup on the default branch (date
already formatted, author name, raw commit message). -/
structure LastCommit where
  date : String
  author : String
  message : String
deriving DecidableEq

/-- The per-record enrichment sub-fetches.  `none` (resp.
`Except.error`) models the exception swallowed by the corresponding
`try/except` block of the source; for the license, `Except.ok none`
models a repository whose `repo.license` is `None`. -/
structure Fetchers where
  contributors : JHit → Option Nat
  commits : JHit → Option Nat
  license : JHit → Except Unit (Option String)
  lastCommit : JHit → Option LastCommit

/-- The enriched repository dictionary (`repo_info` in the source).
`javaVersion` / `versionScore` are `none` on the generic search path,
which does not add those keys. -/
structure RepoInfo where
  name : String
  description : String
  stars : Nat
  forks : Nat
  language : String
  topics : String
  url : String
  contributors : Nat
  commits : Nat
  sizeKb : Nat
  openIssues : Nat
  license : String
  javaVersion : Option String
  versionScore : Option Int
  lastCommitDate : String
  lastCommitAuthor : String
  lastCommitMessage : String
  defaultBranch : String
deriving DecidableEq

/-- First line of a commit message, truncated to 100 characters -
models the Python take of the first message line capped at 100
characters. -/
def firstLine100 (s : String) : String := ⟨(s.toList.takeWhile (fun c => c ≠ '\n')).take 100⟩

/-- Enrichment of one hit into a `repo_info` dictionary; each
sub-fetch degrades independently to its sentinel on failure, exactly
as the four `try/except` blocks of the source do. -/
def repoInfo (f : Fetchers) (h : JHit) : RepoInfo :=
  { name := h.fullName
    description := pyStrOr h.description "No description"
    stars := h.stargazersCount
    forks := h.forksCount
    language := pyStrOr h.language "Unknown"
    topics := if h.topics = [] then "None" else String.intercalate ", " h.topics
    url := h.htmlUrl
    contributors := (f.contributors h).getD 0
    commits := (f.commits h).getD 0
    sizeKb := h.size
    openIssues := h.openIssuesCount
    license :=
      match f.license h with
      | Except.ok (some licenseName) => licenseName
      | Except.ok none => "No license"
      | Except.error _ => "No license"
    javaVersion := none
    versionScore := none
    lastCommitDate :=
      match f.lastCommit h with
      | some lc => lc.date
      | none => "Unknown"
    lastCommitAuthor :=
      match f.lastCommit h with
      | some lc => lc.author
      | none => "Unknown"
    lastCommitMessage :=
      match f.lastCommit h with
      | some lc => firstLine100 lc.message
      | none => "Unable to fetch commit info"
    defaultBranch := h.defaultBranch }

/-- The fixed description keyword list of `_calculate_version_score`:
version-literal, concatenated version, `"jdk"+version`, plus the three
extra keywords for version `"8"`. -/
def versionKeywords (targetVersion : String) : List String :=
  ["java " ++ targetVersion, "java" ++ targetVersion, "jdk" ++ targetVersion] ++
    (if targetVersion = "8" then ["1.8", "lambda", "stream"] else [])

/-- The fixed topic-variant list of `_calculate_version_score`. -/
def versionTopics (targetVersion : String) : List String :=
  ["java" ++ targetVersion, "java-" ++ targetVersion, "jdk" ++ targetVersion]

/-- `_calculate_version_score`: +3 per keyword found as substring of
the lower-cased description, +5 per topic variant present among the
lower-cased topics. -/
def calculateVersionScore (repo : JHit) (targetVersion : String) : Int :=
  let description := lowerStr (repo.description.getD "")
  let score1 : Int := (versionKeywords targetVersion).foldl
    (fun score keyword => if containsSub keyword.toList description then score + 3 else score) 0
  let topics := repo.topics.map lowerStr
  (versionTopics targetVersion).foldl
    (fun score topic => if topic.toList ∈ topics then score + 5 else score) score1

/-- Enrichment on the Java-version path: the generic dictionary plus
the `java_version` and `version_score` keys. -/
def repoInfoJava (f : Fetchers) (h : JHit) (javaVersion : String) : RepoInfo :=
  { repoInfo f h with
      javaVersion := some javaVersion
      versionScore := some (calculateVersionScore h javaVersion) }

/-- Query construction of `search_repos`: free text, then optional
`language:`, `stars:>`, `forks:>` and `topic:` clauses.  Python
truthiness makes `""`, `0` and `None` all skip their clause. -/
def buildSearchQuery (query : String) (language : Option String)
    (topics : Option (List String)) (stars forks : Option Int) : String :=
  let q1 := query ++
    (match language with
     | some l => if l = "" then "" else " language:" ++ l
     | none => "")
  let q2 := q1 ++
    (match stars with
     | some n => if n = 0 then "" else " stars:>" ++ intRepr n
     | none => "")
  let q3 := q2 ++
    (match forks with
     | some n => if n = 0 then "" else " forks:>" ++ intRepr n
     | none => "")
  match topics with
  | some ts => ts.foldl (fun acc t => acc ++ " topic:" ++ t) q3
  | none => q3

/-- The provider search calls issued by one `search_repos` run: always
exactly the one compound query string. -/
def searchReposCalls (query : String) (language : Option String)
    (topics : Option (List String)) (stars forks : Option Int) : List String :=
  [buildSearchQuery query language topics stars forks]

/-- The result-collection loop of `search_repos`: consume hits in
provider order, `break` once `max_results` records were gathered, no
de-duplication, no re-sorting. -/
def collectRepos (f : Fetchers) (maxResults : Nat) : List JHit → List RepoInfo → List RepoInfo
  | [], repos => repos
  | h :: rest, repos =>
    if repos.length ≥ maxResults then repos
    else collectRepos f maxResults rest (repos ++ [repoInfo f h])

/-- `search_repos`: build the query, run the one search call (an
exception yields the empty incomplete result), collect up to
`max_results` enriched records in provider order. -/
def search_repos (f : Fetchers) (provider : String → Except Unit (List JHit))
    (query : String) (language : Option String) (topics : Option (List String))
    (stars forks : Option Int) (maxResults : Nat) : List RepoInfo :=
  match provider (buildSearchQuery query language topics stars forks) with
  | Except.error _ => []
  | Except.ok hits => collectRepos f maxResults hits []

/-- The `base_query` of `search_java_version_repos`: `language:Java`
plus optional `stars:>` clause and build-tool marker file. -/
def baseQuery (stars : Option Int) (buildTool : String) : String :=
  "language:Java" ++
    (match stars with
     | some n => if n = 0 then "" else " stars:>" ++ intRepr n
     | none => "") ++
    (if buildTool = "maven" then " pom.xml"
     else if buildTool = "gradle" then " build.gradle"
     else if buildTool = "ant" then " build.xml"
     else "")

/-- The `version_queries` list of `search_java_version_repos`: one
fixed query group per supported version, the empty list otherwise. -/
def versionQueries (javaVersion : String) (stars : Option Int) (buildTool : String) : List String :=
  let base := baseQuery stars buildTool
  if javaVersion = "8" then
    [base ++ " (java 8 OR java8 OR jdk8 OR \"1.8\")",
     base ++ " (lambda OR stream)",
     base ++ " maven.compiler.source",
     base ++ " sourceCompatibility"]
  else if javaVersion = "11" then
    [base ++ " (java 11 OR java11 OR jdk11)",
     base ++ " maven.compiler.source 11",
     base ++ " sourceCompatibility 11"]
  else if javaVersion = "17" then
    [base ++ " (java 17 OR java17 OR jdk17)",
     base ++ " maven.compiler.source 17",
     base ++ " sourceCompatibility 17"]
  else if javaVersion = "21" then
    [base ++ " (java 21 OR java21 OR jdk21)",
     base ++ " maven.compiler.source 21",
     base ++ " sourceCompatibility 21"]
  else []

/-- Mutable state of the multi-query aggregation loop: `all_repos`,
`seen_repos` (a set, modelled as the list of inserted names) and the
log of provider search calls issued so far. -/
structure AggSt where
  repos : List RepoInfo
  seen : List String
  calls : List String

/-- Inner loop of `search_java_version_repos` over the hits of one query:
`break` once `max_results` records were merged in total, skip a hit
whose `full_name` was already seen, otherwise enrich and append. -/
def mergeHits (f : Fetchers) (javaVersion : String) (maxResults : Nat) :
    List JHit → AggSt → AggSt
  | [], st => st
  | h :: rest, st =>
    if st.repos.length ≥ maxResults then st
    else if h.fullName ∈ st.seen then mergeHits f javaVersion maxResults rest st
    else mergeHits f javaVersion maxResults rest
      { st with
          repos := st.repos ++ [repoInfoJava f h javaVersion]
          seen := h.fullName :: st.seen }

/-- Outer loop of `search_java_version_repos` over the query list: one
provider call per query; a raised exception is logged and skipped
(`continue`), keeping the state gathered so far. -/
def runQueries (f : Fetchers) (javaVersion : String) (maxResults : Nat)
    (provider : String → Except Unit (List JHit)) : List String → AggSt → AggSt
  | [], st => st
  | q :: qs, st =>
    let st1 := { st with calls := st.calls ++ [q] }
    match provider q with
    | Except.error _ => runQueries f javaVersion maxResults provider qs st1
    | Except.ok hits => runQueries f javaVersion maxResults provider qs (mergeHits f javaVersion maxResults hits st1)

/-- Final aggregation state of one `search_java_version_repos` run,
starting from empty `all_repos` / `seen_repos`. -/
def javaAgg (javaVersion buildTool : String) (stars : Option Int) (maxResults : Nat)
    (f : Fetchers) (provider : String → Except Unit (List JHit)) : AggSt :=
  runQueries f javaVersion maxResults provider (versionQueries javaVersion stars buildTool) ⟨[], [], []⟩

/-- Merged records of one run in encounter order (`all_repos` just
before the final sort). -/
def javaEncounters (javaVersion buildTool : String) (stars : Option Int) (maxResults : Nat)
    (f : Fetchers) (provider : String → Except Unit (List JHit)) : List RepoInfo :=
  (javaAgg javaVersion buildTool stars maxResults f provider).repos

/-- Provider search calls issued by one `search_java_version_repos`
run (one per generated query string). -/
def javaSearchCalls (javaVersion buildTool : String) (stars : Option Int) (maxResults : Nat)
    (f : Fetchers) (provider : String → Except Unit (List JHit)) : List String :=
  (javaAgg javaVersion buildTool stars maxResults f provider).calls

/-- Sort key of the final ordering:
`lambda x: (x[version_score], x[stars])` of the source. -/
def sortKey (r : RepoInfo) : Int × Nat := (r.versionScore.getD 0, r.stars)

/-- Strict lexicographic order on sort keys - Python tuple `<`. -/
def pkeyLt (a b : Int × Nat) : Prop := a.1 < b.1 ∨ (a.1 = b.1 ∧ a.2 < b.2)

instance (a b : Int × Nat) : Decidable (pkeyLt a b) := by unfold pkeyLt; infer_instance

/-- Stable insertion step for the descending sort: walk past strictly
greater keys, settle before the first key that is not greater, so an
earlier element precedes all later elements of equal key. -/
def insertDesc {α : Type} (key : α → Int × Nat) (x : α) : List α → List α
  | [] => [x]
  | y :: ys => if pkeyLt (key x) (key y) then y :: insertDesc key x ys else x :: y :: ys

/-- Stable descending sort by `key` - models Python
`list.sort(key=..., reverse=True)`, which is a stable sort whose
`reverse=True` flips comparisons but keeps equal elements in their
original order. -/
def sortDesc {α : Type} (key : α → Int × Nat) : List α → List α
  | [] => []
  | x :: xs => insertDesc key x (sortDesc key xs)

/-- `search_java_version_repos`: run every generated query, merge with
de-duplication, sort by `(version_score, stars)` descending, truncate
to `max_results`. -/
def search_java_version_repos (javaVersion buildTool : String) (stars : Option Int)
    (maxResults : Nat) (f : Fetchers) (provider : String → Except Unit (List JHit)) :
    List RepoInfo :=
  (sortDesc sortKey (javaEncounters javaVersion buildTool stars maxResults f provider)).take maxResults

/-- Concatenation of the hit streams of the successful provider calls,
in query order (errored calls contribute nothing). -/
def successfulHits (provider : String → Except Unit (List JHit)) (queries : List String) :
    List JHit :=
  (queries.map (fun q =>
    match provider q with
    | Except.ok hits => hits
    | Except.error _ => [])).flatten

/-- File-content access of a repository for `analyze_repo`:
`repo.get_contents(filename)` either returns the decoded content or
raises (`Except.error` covers both a missing file and a provider
error, which the bare `except` blocks of the source cannot distinguish). -/
structure RepoEnv where
  getContents : String → Except Unit String

/-- `_check_file_exists`: `True` on success, `False` on any
exception. -/
def checkFileExists (env : RepoEnv) (filename : String) : Bool :=
  match env.getContents filename with
  | Except.ok _ => true
  | Except.error _ => false

/-- `_get_file_content`: the decoded content string, or `None` on any
exception. -/
def getFileContent (env : RepoEnv) (filename : String) : Option String :=
  match env.getContents filename with
  | Except.ok content => some content
  | Except.error _ => none

/-- The analysis dictionary returned by a successful `analyze_repo`
run. -/
structure RepoAnalysis where
  name : String
  url : String
  buildTools : List String
  frameworks : List String
  language : Option String
  topics : List String
deriving DecidableEq

/-- `analyze_repo` body after the repository object was fetched.
`none` models the outer `except Exception` branch that returns the
empty dictionary `{}`.  The framework check follows the source
literally: `_get_file_content` returns the *decoded string*, so
the membership test `dependencies in package_json` is a substring
test, and the subsequent indexing `package_json[dependencies]` applies
a `str` key to a `str`, raising `TypeError` - which propagates to the
outer handler. -/
def analyze_repo (env : RepoEnv) (fullName htmlUrl : String) (language : Option String)
    (topics : List String) : Option RepoAnalysis :=
  let buildTools :=
    (if checkFileExists env "pom.xml" then ["maven"] else []) ++
    (if checkFileExists env "build.xml" then ["ant"] else [])
  let finish : List String → Option RepoAnalysis := fun frameworks =>
    some { name := fullName, url := htmlUrl, buildTools := buildTools,
           frameworks := frameworks, language := language, topics := topics }
  if checkFileExists env "package.json" then
    match getFileContent env "package.json" with
    | some packageJson =>
      if packageJson ≠ "" ∧ containsSub "dependencies".toList packageJson.toList then
        none
      else finish []
    | none => finish []
  else finish []

/-- Fetchers equal to `f` except that the contributor-count lookup
(`repo.get_contributors().totalCount`) raises for the one repository
`h0` - the failure scenario of the per-field fault-tolerance
property. -/
def failContributors (f : Fetchers) (h0 : JHit) : Fetchers :=
  { f with contributors := fun h => if h = h0 then none else f.contributors h }

/-- Fetchers equal to `f` except that the commit-count lookup raises
for `h0`. -/
def failCommits (f : Fetchers) (h0 : JHit) : Fetchers :=
  { f with commits := fun h => if h = h0 then none else f.commits h }

/-- Fetchers equal to `f` except that the license lookup raises for
`h0`. -/
def failLicense (f : Fetchers) (h0 : JHit) : Fetchers :=
  { f with license := fun h => if h = h0 then Except.error () else f.license h }

/-- Fetchers equal to `f` except that the last-commit lookup raises
for `h0`. -/
def failLastCommit (f : Fetchers) (h0 : JHit) : Fetchers :=
  { f with lastCommit := fun h => if h = h0 then none else f.lastCommit h }

/-- Concrete sample hit used to instantiate theorems with hypotheses
on explicit inputs. -/
def sampleHit1 : JHit :=
  { fullName := "alice/app"
    description := some "a demo"
    stargazersCount := 10
    forksCount := 2
    language := some "Java"
    topics := ["cli"]
    htmlUrl := "https://example.test/alice/app"
    size := 100
    openIssuesCount := 1
    defaultBranch := "main" }

/-- A second sample hit with a different full name. -/
def sampleHit2 : JHit :=
  { fullName := "bob/lib"
    description := none
    stargazersCount := 3
    forksCount := 0
    language := some "Java"
    topics := []
    htmlUrl := "https://example.test/bob/lib"
    size := 7
    openIssuesCount := 0
    defaultBranch := "master" }

/-- Sample enrichment sub-fetches that all succeed. -/
def sampleFetchers : Fetchers :=
  { contributors := fun _ => some 5
    commits := fun _ => some 7
    license := fun _ => Except.ok (some "MIT License")
    lastCommit := fun _ =>
      some { date := "2024-01-01 00:00", author := "alice", message := "init" } }

/-- Sample provider returning the two sample hits for every query. -/
def sampleProvider : String → Except Unit (List JHit) :=
  fun _ => Except.ok [sampleHit1, sampleHit2]

/-- Sample provider returning only the first sample hit. -/
def sampleProvider1 : String → Except Unit (List JHit) :=
  fun _ => Except.ok [sampleHit1]

/-- Repository environment for `analyze_repo` in which `pom.xml` is
present, `package.json` is present with a content containing the word
`dependencies` (as every real `package.json` with dependencies does),
and every other lookup raises. -/
def envBug : RepoEnv :=
  ⟨fun fn =>
    if fn = "pom.xml" then Except.ok "<project/>"
    else if fn = "package.json" then Except.ok "\"dependencies\": \"@angular/core\""
    else Except.error ()⟩

/-- Repository environment in which every file lookup raises (no
`pom.xml`, `build.xml` or `package.json`). -/
def envAbsent : RepoEnv :=
  ⟨fun _ => Except.error ()⟩

/-! ### Helper lemmas: strings and keys -/

theorem string_toList_inj {a b : String} (h : a.toList = b.toList) : a = b := by
  cases a
  cases b
  simp only [String.toList] at h
  exact congrArg String.mk h

theorem pkeyLt_asymm {a b : Int × Nat} (h : pkeyLt a b) : ¬ pkeyLt b a := by
  unfold pkeyLt at *
  omega

theorem pkeyGe_trans {a b c : Int × Nat} (h1 : ¬ pkeyLt a b) (h2 : ¬ pkeyLt b c) :
    ¬ pkeyLt a c := by
  unfold pkeyLt at *
  omega

/-! ### Helper lemmas: the stable descending sort -/

theorem mem_insertDesc {α : Type} (key : α → Int × Nat) (x a : α) (l : List α) :
    a ∈ insertDesc key x l ↔ a = x ∨ a ∈ l := by
  induction l with
  | nil => simp [insertDesc]
  | cons y ys ih =>
    simp only [insertDesc]
    split
    · simp only [List.mem_cons, ih]
      tauto
    · simp only [List.mem_cons]

theorem insertDesc_perm {α : Type} (key : α → Int × Nat) (x : α) (l : List α) :
    List.Perm (insertDesc key x l) (x :: l) := by
  induction l with
  | nil => simp [insertDesc]
  | cons y ys ih =>
    simp only [insertDesc]
    split
    · exact (List.Perm.cons y ih).trans (List.Perm.swap x y ys)
    · exact List.Perm.refl _

theorem sortDesc_perm {α : Type} (key : α → Int × Nat) (l : List α) :
    List.Perm (sortDesc key l) l := by
  induction l with
  | nil => simp [sortDesc]
  | cons x xs ih => exact (insertDesc_perm key x (sortDesc key xs)).trans (ih.cons x)

theorem pairwise_insertDesc {α : Type} (key : α → Int × Nat) (x : α) (l : List α)
    (hl : l.Pairwise (fun a b => ¬ pkeyLt (key a) (key b))) :
    (insertDesc key x l).Pairwise (fun a b => ¬ pkeyLt (key a) (key b)) := by
  induction l with
  | nil => simp [insertDesc]
  | cons y ys ih =>
    rw [List.pairwise_cons] at hl
    obtain ⟨hy, hys⟩ := hl
    simp only [insertDesc]
    split
    · rename_i hlt
      rw [List.pairwise_cons]
      refine ⟨?_, ih hys⟩
      intro a ha
      rcases (mem_insertDesc key x a ys).mp ha with rfl | ha
      · exact pkeyLt_asymm hlt
      · exact hy a ha
    · rename_i hnlt
      rw [List.pairwise_cons]
      refine ⟨?_, List.pairwise_cons.mpr ⟨hy, hys⟩⟩
      intro a ha
      rcases List.mem_cons.mp ha with rfl | ha
      · exact hnlt
      · exact pkeyGe_trans hnlt (hy a ha)

theorem sortDesc_sorted {α : Type} (key : α → Int × Nat) (l : List α) :
    (sortDesc key l).Pairwise (fun a b => ¬ pkeyLt (key a) (key b)) := by
  induction l with
  | nil => simp [sortDesc]
  | cons x xs ih => exact pairwise_insertDesc key x (sortDesc key xs) ih

theorem filter_insertDesc {α : Type} (key : α → Int × Nat) (x : α) (l : List α)
    (k : Int × Nat) :
    (insertDesc key x l).filter (fun a => decide (key a = k)) =
      if key x = k then x :: l.filter (fun a => decide (key a = k))
      else l.filter (fun a => decide (key a = k)) := by
  induction l with
  | nil =>
    by_cases hx : key x = k <;> simp [insertDesc, hx]
  | cons y ys ih =>
    simp only [insertDesc]
    split
    · rename_i hlt
      by_cases hy : key y = k
      · have hx : key x ≠ k := by
          intro hx
          rw [hx, hy] at hlt
          unfold pkeyLt at hlt
          omega
        simp [List.filter_cons, hy, hx, ih]
      · simp [List.filter_cons, hy, ih]
    · by_cases hx : key x = k <;> simp [List.filter_cons, hx]

theorem filter_sortDesc {α : Type} (key : α → Int × Nat) (l : List α) (k : Int × Nat) :
    (sortDesc key l).filter (fun a => decide (key a = k)) =
      l.filter (fun a => decide (key a = k)) := by
  induction l with
  | nil => simp [sortDesc]
  | cons x xs ih =>
    simp only [sortDesc]
    rw [filter_insertDesc]
    by_cases hx : key x = k <;> simp [List.filter_cons, hx, ih]

theorem isPrefixOf_iff {l1 l2 : List Char} : l1.isPrefixOf l2 = true ↔ l1 <+: l2 :=
  List.isPrefixOf_iff_prefix

theorem take_pref {α : Type} (n : Nat) (l : List α) : l.take n <+: l :=
  List.take_prefix n l

/-! ### Helper lemmas: substring containment -/

theorem containsSub_nil_left (t : List Char) : containsSub [] t = true := by
  cases t <;> simp [containsSub, List.isPrefixOf]

theorem containsSub_of_pref {n h : List Char} (hp : n <+: h) : containsSub n h = true := by
  cases h with
  | nil =>
    rcases hp with ⟨r, hr⟩
    have : n = [] := by
      cases n with
      | nil => rfl
      | cons a l => simp at hr
    simp [this, containsSub]
  | cons c rest =>
    simp only [containsSub, Bool.or_eq_true]
    exact Or.inl (isPrefixOf_iff.mpr hp)

theorem containsSub_append_left {n t : List Char} (h : List Char)
    (hc : containsSub n t = true) : containsSub n (h ++ t) = true := by
  induction h with
  | nil => simpa using hc
  | cons c h' ih =>
    simp only [List.cons_append, containsSub, Bool.or_eq_true]
    exact Or.inr ih

theorem containsSub_append_right {n h : List Char} (t : List Char)
    (hc : containsSub n h = true) : containsSub n (h ++ t) = true := by
  induction h with
  | nil =>
    simp only [containsSub] at hc
    rw [List.isEmpty_iff] at hc
    subst hc
    exact containsSub_nil_left _
  | cons c h' ih =>
    simp only [containsSub, Bool.or_eq_true] at hc
    rcases hc with hc | hc
    · have hp : n <+: c :: h' := isPrefixOf_iff.mp hc
      exact containsSub_of_pref (hp.trans (List.prefix_append (c :: h') t))
    · simp only [List.cons_append, containsSub, Bool.or_eq_true]
      exact Or.inr (ih hc)

theorem containsSub_append_self (n h : List Char) : containsSub n (h ++ n) = true :=
  containsSub_append_left h (containsSub_of_pref (List.prefix_refl n))

theorem prefix_append_cases {α : Type} {n t : List α} (a : List α) (hp : n <+: a ++ t) :
    n <+: a ∨ ∃ r, n = a ++ r ∧ r <+: t := by
  induction a generalizing n with
  | nil => exact Or.inr ⟨n, rfl, hp⟩
  | cons x a' ih =>
    cases n with
    | nil => exact Or.inl List.nil_prefix
    | cons y n' =>
      rw [List.cons_append, List.cons_prefix_cons] at hp
      obtain ⟨rfl, hp'⟩ := hp
      rcases ih hp' with h1 | ⟨r, rfl, hr⟩
      · exact Or.inl (List.cons_prefix_cons.mpr ⟨rfl, h1⟩)
      · exact Or.inr ⟨r, rfl, hr⟩

theorem containsSub_append_cases {n : List Char} (h t : List Char)
    (hc : containsSub n (h ++ t) = true) :
    containsSub n h = true ∨ containsSub n t = true ∨
      ∃ n₁ n₂, n = n₁ ++ n₂ ∧ n₁ ≠ [] ∧ n₂ ≠ [] ∧ (∃ h₁, h = h₁ ++ n₁) ∧ n₂ <+: t := by
  induction h with
  | nil => exact Or.inr (Or.inl (by simpa using hc))
  | cons c h' ih =>
    simp only [List.cons_append, containsSub, Bool.or_eq_true] at hc
    rcases hc with hc | hc
    · have hp : n <+: (c :: h') ++ t := isPrefixOf_iff.mp hc
      rcases prefix_append_cases (c :: h') hp with h1 | ⟨r, rfl, hr⟩
      · exact Or.inl (containsSub_of_pref h1)
      · rcases List.eq_nil_or_concat r with rfl | _
        · exact Or.inl (containsSub_of_pref (by simp))
        · refine Or.inr (Or.inr ⟨c :: h', r, rfl, by simp, ?_, ⟨[], rfl⟩, hr⟩)
          rename_i hcat
          rcases hcat with ⟨hd, x, rfl⟩
          simp
    · rcases ih hc with h1 | h1 | ⟨n₁, n₂, rfl, hn₁, hn₂, ⟨h₁, rfl⟩, hpre⟩
      · simp only [containsSub, Bool.or_eq_true]
        exact Or.inl (Or.inr h1)
      · exact Or.inr (Or.inl h1)
      · exact Or.inr (Or.inr ⟨n₁, n₂, rfl, hn₁, hn₂, ⟨c :: h₁, rfl⟩, hpre⟩)

theorem spanFree_no_new {n kw : List Char} (d : List Char)
    (hfree : spanFree n kw = true) (hnin : containsSub n kw = false)
    (hnd : containsSub n d = false) : containsSub n (d ++ kw) = false := by
  by_contra hcon
  rw [Bool.not_eq_false] at hcon
  rcases containsSub_append_cases d kw hcon with h1 | h1 | ⟨n₁, n₂, rfl, hn₁, hn₂, _, hpre⟩
  · rw [h1] at hnd
    exact absurd hnd (by simp)
  · rw [h1] at hnin
    exact absurd hnin (by simp)
  · unfold spanFree at hfree
    rw [List.all_eq_true] at hfree
    have hi : n₁.length ∈ List.range (n₁ ++ n₂).length := by
      rw [List.mem_range, List.length_append]
      have : n₂.length ≠ 0 := fun hz => hn₂ (List.eq_nil_of_length_eq_zero hz)
      omega
    have := hfree _ hi
    rw [Bool.or_eq_true] at this
    rcases this with h2 | h2
    · have : n₁.length = 0 := by simpa using h2
      exact hn₁ (List.eq_nil_of_length_eq_zero this)
    · rw [List.drop_left] at h2
      rw [Bool.not_eq_eq_eq_not, Bool.not_true] at h2
      exact absurd (isPrefixOf_iff.mpr hpre) (by simp [h2])

theorem containsSub_append_eq {n kw : List Char} (d : List Char)
    (hfree : spanFree n kw = true) (hnin : containsSub n kw = false) :
    containsSub n (d ++ kw) = containsSub n d := by
  cases hd : containsSub n d with
  | true => exact containsSub_append_right kw hd
  | false => exact spanFree_no_new d hfree hnin hd

/-! ### Helper lemmas: counting and the version score -/

theorem string_toList_append (a b : String) : (a ++ b).toList = a.toList ++ b.toList := rfl

theorem lowerStr_append (a b : String) : lowerStr (a ++ b) = lowerStr a ++ lowerStr b := by
  simp [lowerStr, string_toList_append]

theorem foldl_if_count {κ : Type} (c : Int) (p : κ → Bool) (l : List κ) (a : Int) :
    l.foldl (fun s k => if p k then s + c else s) a = a + c * l.countP p := by
  induction l generalizing a with
  | nil => simp
  | cons k rest ih =>
    simp only [List.foldl_cons, List.countP_cons]
    by_cases hk : p k = true
    · rw [if_pos hk, ih, if_pos hk]
      push_cast
      ring
    · rw [if_neg hk, ih, if_neg hk]
      simp

theorem foldl_if_count_p {κ : Type} (c : Int) (p : κ → Prop) [DecidablePred p]
    (l : List κ) (a : Int) :
    l.foldl (fun s k => if p k then s + c else s) a =
      a + c * l.countP (fun k => decide (p k)) := by
  induction l generalizing a with
  | nil => simp
  | cons k rest ih =>
    simp only [List.foldl_cons, List.countP_cons]
    by_cases hk : p k
    · rw [if_pos hk, ih]
      simp only [decide_eq_true hk]
      simp
      ring
    · rw [if_neg hk, ih]
      simp [hk]

theorem countP_flip_one {κ : Type} {l : List κ} {p p' : κ → Bool} {k : κ}
    (hk : k ∈ l) (hnd : l.Nodup) (hp : p k = false) (hp' : p' k = true)
    (hagree : ∀ x ∈ l, x ≠ k → p' x = p x) :
    l.countP p' = l.countP p + 1 := by
  induction l with
  | nil => simp at hk
  | cons h rest ih =>
    rw [List.nodup_cons] at hnd
    rcases List.mem_cons.mp hk with rfl | hk'
    · have hrest : rest.countP p' = rest.countP p := by
        apply List.countP_congr
        intro x hx
        have hxk : x ≠ k := fun he => hnd.1 (he ▸ hx)
        rw [hagree x (List.mem_cons_of_mem _ hx) hxk]
      rw [List.countP_cons, List.countP_cons, hp, hp', hrest]
      simp
    · have hh : h ≠ k := fun he => hnd.1 (he ▸ hk')
      rw [List.countP_cons, List.countP_cons,
        hagree h (List.mem_cons_self h rest) hh,
        ih hk' hnd.2 (fun x hx hxk => hagree x (List.mem_cons_of_mem _ hx) hxk)]
      by_cases hph : p h = true <;> simp [hph]

theorem calcScore_eq (repo : JHit) (v : String) :
    calculateVersionScore repo v =
      3 * ((versionKeywords v).countP
        (fun kw => containsSub kw.toList (lowerStr (repo.description.getD "")))) +
      5 * ((versionTopics v).countP
        (fun tp => decide (tp.toList ∈ repo.topics.map lowerStr))) := by
  simp only [calculateVersionScore]
  rw [foldl_if_count, foldl_if_count_p]
  ring

theorem calcScore_nonneg (repo : JHit) (v : String) : 0 ≤ calculateVersionScore repo v := by
  rw [calcScore_eq]
  positivity

theorem descScore_incr_case (v kw : String) (h : JHit) (d : String)
    (hdesc : h.description = some d)
    (hmem : kw ∈ versionKeywords v)
    (hnd : (versionKeywords v).Nodup)
    (hlow : kw.toList.map Char.toLower = kw.toList)
    (hside : ∀ kw' ∈ versionKeywords v, kw' ≠ kw →
      spanFree kw'.toList kw.toList = true ∧ containsSub kw'.toList kw.toList = false)
    (hnot : containsSub kw.toList (lowerStr d) = false) :
    calculateVersionScore { h with description := some (d ++ kw) } v =
      calculateVersionScore h v + 3 := by
  rw [calcScore_eq, calcScore_eq]
  simp only [hdesc, Option.getD_some]
  have hltail : lowerStr (d ++ kw) = lowerStr d ++ kw.toList := by
    rw [lowerStr_append]
    unfold lowerStr
    rw [hlow]
  rw [hltail]
  have hcnt : (versionKeywords v).countP
      (fun kw' => containsSub kw'.toList (lowerStr d ++ kw.toList)) =
      (versionKeywords v).countP (fun kw' => containsSub kw'.toList (lowerStr d)) + 1 := by
    refine countP_flip_one hmem hnd hnot (containsSub_append_self _ _) ?_
    intro x hx hxk
    exact containsSub_append_eq (lowerStr d) (hside x hx hxk).1 (hside x hx hxk).2
  rw [hcnt]
  push_cast
  ring

theorem topicScore_incr_case (v tv : String) (h : JHit) (t : String)
    (hmem : tv ∈ versionTopics v)
    (hnd : (versionTopics v).Nodup)
    (hlow : lowerStr t = tv.toList)
    (hnotin : tv.toList ∉ h.topics.map lowerStr) :
    calculateVersionScore { h with topics := h.topics ++ [t] } v =
      calculateVersionScore h v + 5 := by
  rw [calcScore_eq, calcScore_eq]
  simp only [List.map_append, List.map_cons, List.map_nil, hlow]
  have hcnt : (versionTopics v).countP
      (fun tp => decide (tp.toList ∈ h.topics.map lowerStr ++ [tv.toList])) =
      (versionTopics v).countP (fun tp => decide (tp.toList ∈ h.topics.map lowerStr)) + 1 := by
    refine countP_flip_one hmem hnd (by simpa using hnotin) (by simp) ?_
    intro x hx hxk
    have hxl : x.toList ≠ tv.toList := fun he => hxk (string_toList_inj he)
    have hiff : (x.toList ∈ h.topics.map lowerStr ++ [tv.toList]) ↔
        (x.toList ∈ h.topics.map lowerStr) := by
      constructor
      · intro hm
        rcases List.mem_append.mp hm with hm | hm
        · exact hm
        · exact absurd (List.mem_singleton.mp hm) hxl
      · exact fun hm => List.mem_append_left _ hm
    exact decide_eq_decide.mpr hiff
  rw [hcnt]
  push_cast
  ring

/-! ### Helper lemmas: the multi-query aggregation loop -/

theorem repoInfo_name (f : Fetchers) (h : JHit) : (repoInfo f h).name = h.fullName := rfl

theorem repoInfoJava_name (f : Fetchers) (h : JHit) (v : String) :
    (repoInfoJava f h v).name = h.fullName := rfl

theorem mergeHits_calls (f : Fetchers) (v : String) (cap : Nat) (hits : List JHit)
    (st : AggSt) : (mergeHits f v cap hits st).calls = st.calls := by
  induction hits generalizing st with
  | nil => rfl
  | cons h rest ih =>
    simp only [mergeHits]
    split
    · rfl
    · split
      · exact ih st
      · exact ih _

theorem mergeHits_inv (f : Fetchers) (v : String) (cap : Nat) (hits : List JHit)
    (st : AggSt)
    (hinv : st.repos.map RepoInfo.name = st.seen.reverse ∧ st.seen.Nodup) :
    (mergeHits f v cap hits st).repos.map RepoInfo.name =
        (mergeHits f v cap hits st).seen.reverse ∧
      (mergeHits f v cap hits st).seen.Nodup := by
  induction hits generalizing st with
  | nil => exact hinv
  | cons h rest ih =>
    simp only [mergeHits]
    split
    · exact hinv
    · split
      · exact ih st hinv
      · rename_i hlen hseen
        apply ih
        constructor
        · simp only [List.map_append, List.map_cons, List.map_nil, List.reverse_cons,
            repoInfoJava_name, hinv.1]
        · exact List.nodup_cons.mpr ⟨hseen, hinv.2⟩

theorem mergeHits_len_ge (f : Fetchers) (v : String) (cap : Nat) (hits : List JHit)
    (st : AggSt) : st.repos.length ≤ (mergeHits f v cap hits st).repos.length := by
  induction hits generalizing st with
  | nil => exact Nat.le_refl _
  | cons h rest ih =>
    simp only [mergeHits]
    split
    · exact Nat.le_refl _
    · split
      · exact ih st
      · refine Nat.le_trans ?_ (ih _)
        simp

theorem mergeHits_len_le (f : Fetchers) (v : String) (cap : Nat) (hits : List JHit)
    (st : AggSt) (hle : st.repos.length ≤ cap) :
    (mergeHits f v cap hits st).repos.length ≤ cap := by
  induction hits generalizing st with
  | nil => exact hle
  | cons h rest ih =>
    simp only [mergeHits]
    split
    · exact hle
    · rename_i hlen
      split
      · exact ih st hle
      · apply ih
        simp only [List.length_append, List.length_cons, List.length_nil]
        omega

theorem mergeHits_seen_sub (f : Fetchers) (v : String) (cap : Nat) (hits : List JHit)
    (st : AggSt) : st.seen ⊆ (mergeHits f v cap hits st).seen := by
  induction hits generalizing st with
  | nil => exact fun _ hx => hx
  | cons h rest ih =>
    simp only [mergeHits]
    split
    · exact fun _ hx => hx
    · split
      · exact ih st
      · intro x hx
        exact ih _ (List.mem_cons_of_mem _ hx)

theorem mergeHits_covers (f : Fetchers) (v : String) (cap : Nat) (hits : List JHit)
    (st : AggSt)
    (hlt : (mergeHits f v cap hits st).repos.length < cap) :
    ∀ h' ∈ hits, h'.fullName ∈ (mergeHits f v cap hits st).seen := by
  induction hits generalizing st with
  | nil => intro h' hh'; simp at hh'
  | cons h rest ih =>
    intro h' hh'
    by_cases hlen : st.repos.length ≥ cap
    · rw [mergeHits, if_pos hlen] at hlt
      omega
    · by_cases hseen : h.fullName ∈ st.seen
      · rw [mergeHits, if_neg hlen, if_pos hseen] at hlt ⊢
        rcases List.mem_cons.mp hh' with rfl | hh'
        · exact mergeHits_seen_sub f v cap rest st hseen
        · exact ih st hlt h' hh'
      · rw [mergeHits, if_neg hlen, if_neg hseen] at hlt ⊢
        rcases List.mem_cons.mp hh' with rfl | hh'
        · exact mergeHits_seen_sub f v cap rest _ (List.mem_cons_self _ _)
        · exact ih _ hlt h' hh'

theorem mergeHits_mem (f : Fetchers) (v : String) (cap : Nat) (hits : List JHit)
    (st : AggSt) :
    ∀ r ∈ (mergeHits f v cap hits st).repos,
      r ∈ st.repos ∨ ∃ h' ∈ hits, r = repoInfoJava f h' v := by
  induction hits generalizing st with
  | nil => exact fun r hr => Or.inl hr
  | cons h rest ih =>
    intro r hr
    rw [mergeHits] at hr
    split at hr
    · exact Or.inl hr
    · split at hr
      · rcases ih st r hr with h1 | ⟨h', hh', he⟩
        · exact Or.inl h1
        · exact Or.inr ⟨h', List.mem_cons_of_mem _ hh', he⟩
      · rcases ih _ r hr with h1 | ⟨h', hh', he⟩
        · rcases List.mem_append.mp h1 with h2 | h2
          · exact Or.inl h2
          · exact Or.inr ⟨h, List.mem_cons_self _ _, (List.mem_singleton.mp h2)⟩
        · exact Or.inr ⟨h', List.mem_cons_of_mem _ hh', he⟩

theorem runQueries_calls (f : Fetchers) (v : String) (cap : Nat)
    (provider : String → Except Unit (List JHit)) (qs : List String) (st : AggSt) :
    (runQueries f v cap provider qs st).calls = st.calls ++ qs := by
  induction qs generalizing st with
  | nil => simp [runQueries]
  | cons q qs' ih =>
    rw [runQueries]
    split
    · rw [ih]
      simp
    · rw [ih, mergeHits_calls]
      simp

theorem runQueries_inv (f : Fetchers) (v : String) (cap : Nat)
    (provider : String → Except Unit (List JHit)) (qs : List String) (st : AggSt)
    (hinv : st.repos.map RepoInfo.name = st.seen.reverse ∧ st.seen.Nodup) :
    (runQueries f v cap provider qs st).repos.map RepoInfo.name =
        (runQueries f v cap provider qs st).seen.reverse ∧
      (runQueries f v cap provider qs st).seen.Nodup := by
  induction qs generalizing st with
  | nil => exact hinv
  | cons q qs' ih =>
    rw [runQueries]
    split
    · exact ih _ hinv
    · exact ih _ (mergeHits_inv f v cap _ _ hinv)

theorem runQueries_len_ge (f : Fetchers) (v : String) (cap : Nat)
    (provider : String → Except Unit (List JHit)) (qs : List String) (st : AggSt) :
    st.repos.length ≤ (runQueries f v cap provider qs st).repos.length := by
  induction qs generalizing st with
  | nil => exact Nat.le_refl _
  | cons q qs' ih =>
    rw [runQueries]
    split
    · exact ih ⟨st.repos, st.seen, st.calls ++ [q]⟩
    · rename_i hits heq
      exact Nat.le_trans
        (mergeHits_len_ge f v cap hits ⟨st.repos, st.seen, st.calls ++ [q]⟩)
        (ih (mergeHits f v cap hits ⟨st.repos, st.seen, st.calls ++ [q]⟩))

theorem runQueries_len_le (f : Fetchers) (v : String) (cap : Nat)
    (provider : String → Except Unit (List JHit)) (qs : List String) (st : AggSt)
    (hle : st.repos.length ≤ cap) :
    (runQueries f v cap provider qs st).repos.length ≤ cap := by
  induction qs generalizing st with
  | nil => exact hle
  | cons q qs' ih =>
    rw [runQueries]
    split
    · exact ih _ hle
    · exact ih _ (mergeHits_len_le f v cap _ _ hle)

theorem runQueries_seen_sub (f : Fetchers) (v : String) (cap : Nat)
    (provider : String → Except Unit (List JHit)) (qs : List String) (st : AggSt) :
    st.seen ⊆ (runQueries f v cap provider qs st).seen := by
  induction qs generalizing st with
  | nil => exact fun _ hx => hx
  | cons q qs' ih =>
    rw [runQueries]
    split
    · exact ih ⟨st.repos, st.seen, st.calls ++ [q]⟩
    · rename_i hits heq
      exact fun x hx =>
        ih (mergeHits f v cap hits ⟨st.repos, st.seen, st.calls ++ [q]⟩)
          (mergeHits_seen_sub f v cap hits ⟨st.repos, st.seen, st.calls ++ [q]⟩ hx)

theorem runQueries_covers (f : Fetchers) (v : String) (cap : Nat)
    (provider : String → Except Unit (List JHit)) (qs : List String) (st : AggSt)
    (hlt : (runQueries f v cap provider qs st).repos.length < cap) :
    ∀ h' ∈ successfulHits provider qs,
      h'.fullName ∈ (runQueries f v cap provider qs st).seen := by
  induction qs generalizing st with
  | nil =>
    intro h' hh'
    simp [successfulHits] at hh'
  | cons q qs' ih =>
    intro h' hh'
    rw [runQueries] at hlt ⊢
    unfold successfulHits at hh'
    rw [List.map_cons, List.flatten_cons] at hh'
    split at hlt
    · rename_i e heq
      rw [heq] at hh'
      exact ih ⟨st.repos, st.seen, st.calls ++ [q]⟩ hlt h' hh'
    · rename_i hits heq
      rw [heq] at hh'
      rcases List.mem_append.mp hh' with hh2 | hh2
      · have hm : (mergeHits f v cap hits ⟨st.repos, st.seen, st.calls ++ [q]⟩).repos.length < cap :=
          Nat.lt_of_le_of_lt (runQueries_len_ge f v cap provider qs'
            (mergeHits f v cap hits ⟨st.repos, st.seen, st.calls ++ [q]⟩)) hlt
        exact runQueries_seen_sub f v cap provider qs'
          (mergeHits f v cap hits ⟨st.repos, st.seen, st.calls ++ [q]⟩)
          (mergeHits_covers f v cap hits ⟨st.repos, st.seen, st.calls ++ [q]⟩ hm h' hh2)
      · exact ih (mergeHits f v cap hits ⟨st.repos, st.seen, st.calls ++ [q]⟩) hlt h' hh2

theorem runQueries_mem (f : Fetchers) (v : String) (cap : Nat)
    (provider : String → Except Unit (List JHit)) (qs : List String) (st : AggSt) :
    ∀ r ∈ (runQueries f v cap provider qs st).repos,
      r ∈ st.repos ∨ ∃ h' ∈ successfulHits provider qs, r = repoInfoJava f h' v := by
  induction qs generalizing st with
  | nil => exact fun r hr => Or.inl hr
  | cons q qs' ih =>
    intro r hr
    rw [runQueries] at hr
    unfold successfulHits
    rw [List.map_cons, List.flatten_cons]
    split at hr
    · rename_i e heq
      rw [heq]
      rcases ih ⟨st.repos, st.seen, st.calls ++ [q]⟩ r hr with h1 | ⟨h', hh', he⟩
      · exact Or.inl h1
      · exact Or.inr ⟨h', List.mem_append_right _ hh', he⟩
    · rename_i hits heq
      rw [heq]
      rcases ih (mergeHits f v cap hits ⟨st.repos, st.seen, st.calls ++ [q]⟩) r hr with
        h1 | ⟨h', hh', he⟩
      · rcases mergeHits_mem f v cap hits ⟨st.repos, st.seen, st.calls ++ [q]⟩ r h1 with
          h2 | ⟨h', hh', he⟩
        · exact Or.inl h2
        · exact Or.inr ⟨h', List.mem_append_left _ hh', he⟩
      · exact Or.inr ⟨h', List.mem_append_right _ hh', he⟩

/-! ### Helper lemmas: the generic collection loop -/

theorem collectRepos_eq (f : Fetchers) (cap : Nat) (hits : List JHit) (acc : List RepoInfo) :
    collectRepos f cap hits acc = acc ++ (hits.take (cap - acc.length)).map (repoInfo f) := by
  induction hits generalizing acc with
  | nil => simp [collectRepos]
  | cons h rest ih =>
    rw [collectRepos]
    split
    · rename_i hge
      have hz : cap - acc.length = 0 := by omega
      simp [hz]
    · rename_i hlt
      rw [ih]
      have hs : cap - acc.length = (cap - (acc.length + 1)) + 1 := by omega
      rw [hs, List.take_succ_cons]
      simp

theorem collectRepos_len (f : Fetchers) (cap : Nat) (hits : List JHit) :
    (collectRepos f cap hits []).length = min cap hits.length := by
  rw [collectRepos_eq]
  simp [List.length_take]

/-! ### Helper lemmas: decimal digits and OR counting -/

theorem natDigitsAux_mem (fuel n : Nat) (c : Char) (hc : c ∈ natDigitsAux fuel n) :
    c ∈ ("0123456789" : String).toList := by
  induction fuel generalizing n with
  | zero => simp [natDigitsAux] at hc
  | succ fuel ih =>
    rw [natDigitsAux] at hc
    have h10 : ∀ m, m < 10 → digitChar m ∈ ("0123456789" : String).toList := by decide
    split at hc
    · rename_i hlt
      have hcd : c = digitChar n := by simpa using hc
      subst hcd
      exact h10 n hlt
    · rcases List.mem_append.mp hc with hc | hc
      · exact ih _ hc
      · have hcd : c = digitChar (n % 10) := by simpa using hc
        subst hcd
        exact h10 _ (Nat.mod_lt _ (by omega))

theorem intRepr_noO (n : Int) : ∀ c ∈ (intRepr n).toList, c ≠ 'O' := by
  have hdig : ∀ c ∈ ("0123456789" : String).toList, c ≠ 'O' := by decide
  intro c hc
  unfold intRepr at hc
  split at hc
  · rw [string_toList_append] at hc
    rcases List.mem_append.mp hc with hc | hc
    · simp only [show ("-" : String).toList = ['-'] from rfl, List.mem_singleton] at hc
      subst hc
      decide
    · exact hdig c (natDigitsAux_mem _ _ c hc)
  · exact hdig c (natDigitsAux_mem _ _ c hc)

theorem countORAux_append (l t : List Char) (hl : ∀ c ∈ l, c ≠ 'O') :
    countORAux (l ++ t) = countORAux t := by
  induction l with
  | nil => simp
  | cons a l' ih =>
    have ha : a ≠ 'O' := hl a (List.mem_cons_self _ _)
    have ih' := ih (fun c hc => hl c (List.mem_cons_of_mem _ hc))
    cases hx : l' ++ t with
    | nil =>
      have ht : t = [] := (List.append_eq_nil.mp hx).2
      subst ht
      rw [List.cons_append, hx]
      rfl
    | cons b rest =>
      rw [List.cons_append, hx]
      show (if a = 'O' ∧ b = 'R' then 1 else 0) + countORAux (b :: rest) = countORAux t
      rw [if_neg (by simp [ha]), ← hx, ih']
      simp

theorem baseQuery_noO (stars : Option Int) (bt : String) :
    ∀ c ∈ (baseQuery stars bt).toList, c ≠ 'O' := by
  intro c hc
  unfold baseQuery at hc
  rw [string_toList_append, string_toList_append] at hc
  have hlit1 : ∀ x ∈ ("language:Java" : String).toList, x ≠ 'O' := by decide
  have hlit2 : ∀ x ∈ (" stars:>" : String).toList, x ≠ 'O' := by decide
  have hlit3 : ∀ x ∈ (" pom.xml" : String).toList, x ≠ 'O' := by decide
  have hlit4 : ∀ x ∈ (" build.gradle" : String).toList, x ≠ 'O' := by decide
  have hlit5 : ∀ x ∈ (" build.xml" : String).toList, x ≠ 'O' := by decide
  rcases List.mem_append.mp hc with hc | hc
  · rcases List.mem_append.mp hc with hc | hc
    · exact hlit1 c hc
    · rcases hst : stars with _ | n
      · rw [hst] at hc
        simp at hc
      · rw [hst] at hc
        simp only at hc
        by_cases hz : n = 0
        · rw [if_pos hz] at hc
          simp at hc
        · rw [if_neg hz] at hc
          rw [string_toList_append] at hc
          rcases List.mem_append.mp hc with hc | hc
          · exact hlit2 c hc
          · exact intRepr_noO n c hc
  · split at hc
    · exact hlit3 c hc
    · split at hc
      · exact hlit4 c hc
      · split at hc
        · exact hlit5 c hc
        · simp at hc

/-! ### Assembled facts about the two search paths -/

theorem javaAgg_inv (javaVersion buildTool : String) (stars : Option Int) (maxResults : Nat)
    (f : Fetchers) (provider : String → Except Unit (List JHit)) :
    (javaAgg javaVersion buildTool stars maxResults f provider).repos.map RepoInfo.name =
        (javaAgg javaVersion buildTool stars maxResults f provider).seen.reverse ∧
      (javaAgg javaVersion buildTool stars maxResults f provider).seen.Nodup :=
  runQueries_inv f javaVersion maxResults provider _ ⟨[], [], []⟩ (by simp)

theorem javaEncounters_names_nodup (javaVersion buildTool : String) (stars : Option Int)
    (maxResults : Nat) (f : Fetchers) (provider : String → Except Unit (List JHit)) :
    ((javaEncounters javaVersion buildTool stars maxResults f provider).map
      RepoInfo.name).Nodup := by
  have h := javaAgg_inv javaVersion buildTool stars maxResults f provider
  unfold javaEncounters
  rw [h.1]
  exact List.nodup_reverse.mpr h.2

theorem java_results_names_nodup (javaVersion buildTool : String) (stars : Option Int)
    (maxResults : Nat) (f : Fetchers) (provider : String → Except Unit (List JHit)) :
    ((search_java_version_repos javaVersion buildTool stars maxResults f provider).map
      RepoInfo.name).Nodup := by
  have hnd := javaEncounters_names_nodup javaVersion buildTool stars maxResults f provider
  unfold search_java_version_repos
  have hperm :
      ((sortDesc sortKey (javaEncounters javaVersion buildTool stars maxResults f
        provider)).map RepoInfo.name).Perm
        ((javaEncounters javaVersion buildTool stars maxResults f provider).map
          RepoInfo.name) :=
    (sortDesc_perm sortKey _).map _
  exact ((List.take_sublist _ _).map RepoInfo.name).nodup (hperm.symm.nodup hnd)

theorem java_results_from_hits (javaVersion buildTool : String) (stars : Option Int)
    (maxResults : Nat) (f : Fetchers) (provider : String → Except Unit (List JHit)) :
    ∀ r ∈ search_java_version_repos javaVersion buildTool stars maxResults f provider,
      ∃ h' ∈ successfulHits provider (versionQueries javaVersion stars buildTool),
        r = repoInfoJava f h' javaVersion := by
  intro r hr
  unfold search_java_version_repos at hr
  have hr2 : r ∈ sortDesc sortKey (javaEncounters javaVersion buildTool stars maxResults f
      provider) := (List.take_sublist _ _).subset hr
  have hr3 : r ∈ javaEncounters javaVersion buildTool stars maxResults f provider :=
    (sortDesc_perm sortKey _).subset hr2
  rcases runQueries_mem f javaVersion maxResults provider _ ⟨[], [], []⟩ r hr3 with h1 | h2
  · simp at h1
  · exact h2

theorem javaAgg_len_le (javaVersion buildTool : String) (stars : Option Int)
    (maxResults : Nat) (f : Fetchers) (provider : String → Except Unit (List JHit)) :
    (javaAgg javaVersion buildTool stars maxResults f provider).repos.length ≤ maxResults :=
  runQueries_len_le f javaVersion maxResults provider _ ⟨[], [], []⟩ (by simp)

theorem javaAgg_len_eq (javaVersion buildTool : String) (stars : Option Int)
    (maxResults : Nat) (f : Fetchers) (provider : String → Except Unit (List JHit))
    (hen : maxResults ≤ (((successfulHits provider
        (versionQueries javaVersion stars buildTool)).map JHit.fullName).dedup).length) :
    (javaAgg javaVersion buildTool stars maxResults f provider).repos.length = maxResults := by
  have hle := javaAgg_len_le javaVersion buildTool stars maxResults f provider
  by_contra hne
  have hlt : (javaAgg javaVersion buildTool stars maxResults f provider).repos.length <
      maxResults := Nat.lt_of_le_of_ne hle hne
  have hcov := runQueries_covers f javaVersion maxResults provider
    (versionQueries javaVersion stars buildTool) ⟨[], [], []⟩ hlt
  have hinv := javaAgg_inv javaVersion buildTool stars maxResults f provider
  have hlen : (javaAgg javaVersion buildTool stars maxResults f provider).seen.length =
      (javaAgg javaVersion buildTool stars maxResults f provider).repos.length := by
    have hc := congrArg List.length hinv.1
    simpa using hc.symm
  have hsub : (((successfulHits provider
      (versionQueries javaVersion stars buildTool)).map JHit.fullName).dedup) ⊆
      (javaAgg javaVersion buildTool stars maxResults f provider).seen := by
    intro n hn
    have hn2 : n ∈ (successfulHits provider
        (versionQueries javaVersion stars buildTool)).map JHit.fullName :=
      (List.dedup_sublist _).subset hn
    rcases List.mem_map.mp hn2 with ⟨h', hh', rfl⟩
    exact hcov h' hh'
  have hsp := (List.nodup_dedup _).subperm hsub
  have hll := hsp.length_le
  omega

theorem java_results_length (javaVersion buildTool : String) (stars : Option Int)
    (maxResults : Nat) (f : Fetchers) (provider : String → Except Unit (List JHit)) :
    (search_java_version_repos javaVersion buildTool stars maxResults f provider).length =
      min maxResults (javaAgg javaVersion buildTool stars maxResults f provider).repos.length := by
  unfold search_java_version_repos
  rw [List.length_take, (sortDesc_perm sortKey _).length_eq]
  rfl

/-! ### The claims -/

/-- C1: the multi-query Java-version search never returns two records
with the same `fullName`: the returned name list has no duplicates,
and every returned record is the enrichment of one single provider hit
(so a later hit with an already-seen name is discarded, with no
field-level merge). -/
theorem c1_multi_query_dedup (javaVersion buildTool : String) (stars : Option Int)
    (maxResults : Nat) (f : Fetchers) (provider : String → Except Unit (List JHit)) :
    ((search_java_version_repos javaVersion buildTool stars maxResults f provider).map
        RepoInfo.name).Nodup ∧
      ∀ r ∈ search_java_version_repos javaVersion buildTool stars maxResults f provider,
        ∃ h' ∈ successfulHits provider (versionQueries javaVersion stars buildTool),
          r = repoInfoJava f h' javaVersion :=
  ⟨java_results_names_nodup javaVersion buildTool stars maxResults f provider,
   java_results_from_hits javaVersion buildTool stars maxResults f provider⟩

/-- Witness for C1 on concrete inputs: the single-hit provider yields
a duplicate-free result containing the enrichment of that hit. -/
theorem c1_multi_query_dedup_witness :
    ((search_java_version_repos "8" "" none 5 sampleFetchers sampleProvider1).map
        RepoInfo.name).Nodup ∧
      repoInfoJava sampleFetchers sampleHit1 "8" ∈
        search_java_version_repos "8" "" none 5 sampleFetchers sampleProvider1 ∧
      ∃ h' ∈ successfulHits sampleProvider1 (versionQueries "8" none ""),
        repoInfoJava sampleFetchers sampleHit1 "8" = repoInfoJava sampleFetchers h' "8" :=
  ⟨(c1_multi_query_dedup "8" "" none 5 sampleFetchers sampleProvider1).1,
   by decide,
   (c1_multi_query_dedup "8" "" none 5 sampleFetchers sampleProvider1).2
     (repoInfoJava sampleFetchers sampleHit1 "8") (by decide)⟩

/-- C2: with result cap `m > 0`, both search operations return at most
`m` records; given at least `m` hits (distinct by `fullName` on the
multi-query path), exactly `m` records are returned. -/
theorem c2_result_cap (query : String) (language : Option String)
    (topics : Option (List String)) (stars forks : Option Int)
    (javaVersion buildTool : String) (jstars : Option Int) (maxResults : Nat)
    (f : Fetchers) (provider : String → Except Unit (List JHit)) (hits : List JHit)
    (hpos : 0 < maxResults) :
    (search_repos f provider query language topics stars forks maxResults).length ≤
        maxResults ∧
      (maxResults ≤ hits.length →
        (search_repos f (fun _ => Except.ok hits) query language topics stars forks
          maxResults).length = maxResults) ∧
      (search_java_version_repos javaVersion buildTool jstars maxResults f provider).length ≤
        maxResults ∧
      (maxResults ≤ (((successfulHits provider
          (versionQueries javaVersion jstars buildTool)).map JHit.fullName).dedup).length →
        (search_java_version_repos javaVersion buildTool jstars maxResults f
          provider).length = maxResults) := by
  refine ⟨?_, ?_, ?_, ?_⟩
  · unfold search_repos
    split
    · simp
    · rw [collectRepos_len]
      exact Nat.min_le_left _ _
  · intro hlen
    simp only [search_repos]
    rw [collectRepos_len]
    omega
  · rw [java_results_length]
    exact Nat.min_le_left _ _
  · intro hen
    rw [java_results_length,
      javaAgg_len_eq javaVersion buildTool jstars maxResults f provider hen]
    omega

/-- Witness for C2 on concrete inputs: cap 1 with two available
(distinct) hits yields exactly one record on both paths. -/
theorem c2_result_cap_witness :
    (0 < 1) ∧
      (search_repos sampleFetchers sampleProvider "q" none none none none 1).length ≤ 1 ∧
      (1 ≤ ([sampleHit1, sampleHit2] : List JHit).length) ∧
      (search_repos sampleFetchers (fun _ => Except.ok [sampleHit1, sampleHit2]) "q" none
        none none none 1).length = 1 ∧
      (1 ≤ (((successfulHits sampleProvider (versionQueries "8" none "")).map
        JHit.fullName).dedup).length) ∧
      (search_java_version_repos "8" "" none 1 sampleFetchers sampleProvider).length = 1 := by
  have h := c2_result_cap "q" none none none none "8" "" none 1 sampleFetchers
    sampleProvider [sampleHit1, sampleHit2] (by decide)
  exact ⟨by decide, h.1, by decide, h.2.1 (by decide), by decide, h.2.2.2 (by decide)⟩

/-- C4: the multi-query path returns records sorted by
`(version_score, starCount)` descending, records of equal key keep
their encounter order (the filter at each key value is a prefix of the
encounter-order filter), and the generic path returns records in
provider order with no re-sort. -/
theorem c4_final_ordering (javaVersion buildTool : String) (stars : Option Int)
    (maxResults : Nat) (f : Fetchers) (provider : String → Except Unit (List JHit)) :
    (search_java_version_repos javaVersion buildTool stars maxResults f provider).Pairwise
        (fun a b => ¬ pkeyLt (sortKey a) (sortKey b)) ∧
      (∀ k : Int × Nat,
        (search_java_version_repos javaVersion buildTool stars maxResults f
            provider).filter (fun r => decide (sortKey r = k)) <+:
          (javaEncounters javaVersion buildTool stars maxResults f provider).filter
            (fun r => decide (sortKey r = k))) ∧
      (∀ (query : String) (language : Option String) (topics : Option (List String))
          (st fk : Option Int) (cap : Nat) (hits : List JHit),
        (search_repos f (fun _ => Except.ok hits) query language topics st fk cap).map
            RepoInfo.name = (hits.take cap).map JHit.fullName) := by
  refine ⟨?_, ?_, ?_⟩
  · exact List.Pairwise.sublist (List.take_sublist _ _) (sortDesc_sorted sortKey _)
  · intro k
    have h1 := List.IsPrefix.filter (fun r => decide (sortKey r = k))
      (take_pref maxResults
        (sortDesc sortKey (javaEncounters javaVersion buildTool stars maxResults f provider)))
    rw [filter_sortDesc] at h1
    exact h1
  · intro query language topics st fk cap hits
    simp only [search_repos]
    rw [collectRepos_eq]
    simp only [List.nil_append, List.length_nil, Nat.sub_zero, List.map_map]
    exact List.map_congr_left (fun h _ => rfl)

/-- C10: the generic search performs no de-duplication - its output is
exactly the enrichment of the cap-truncated provider stream, duplicate
full names included; the merged-set discard by `fullName` exists only
on the multi-query Java-version path, whose output names are
duplicate-free. -/
theorem c10_generic_no_dedup :
    (∀ (query : String) (language : Option String) (topics : Option (List String))
        (st fk : Option Int) (cap : Nat) (f : Fetchers) (hits : List JHit),
      search_repos f (fun _ => Except.ok hits) query language topics st fk cap =
        (hits.take cap).map (repoInfo f)) ∧
      ∀ (javaVersion buildTool : String) (stars : Option Int) (maxResults : Nat)
          (f : Fetchers) (provider : String → Except Unit (List JHit)),
        ((search_java_version_repos javaVersion buildTool stars maxResults f provider).map
          RepoInfo.name).Nodup := by
  constructor
  · intro query language topics st fk cap f hits
    simp only [search_repos]
    rw [collectRepos_eq]
    simp
  · intro javaVersion buildTool stars maxResults f provider
    exact java_results_names_nodup javaVersion buildTool stars maxResults f provider

/-- C3: for every supported target version (the only values that ever
reach the scoring function), appending a keyword of the fixed list not
yet present in the lower-cased description raises the score by exactly
3, adding a topic variant not yet present (case-insensitively) raises
it by exactly 5, and the score is a non-negative integer. -/
theorem c3_score_monotonic (v : String)
    (hv : v = "8" ∨ v = "11" ∨ v = "17" ∨ v = "21") :
    (∀ (h : JHit) (d kw : String), h.description = some d →
      kw ∈ versionKeywords v →
      containsSub kw.toList (lowerStr d) = false →
      calculateVersionScore { h with description := some (d ++ kw) } v =
        calculateVersionScore h v + 3) ∧
      (∀ (h : JHit) (t tv : String), tv ∈ versionTopics v →
        lowerStr t = tv.toList →
        tv.toList ∉ h.topics.map lowerStr →
        calculateVersionScore { h with topics := h.topics ++ [t] } v =
          calculateVersionScore h v + 5) ∧
      ∀ h : JHit, 0 ≤ calculateVersionScore h v := by
  refine ⟨?_, ?_, fun h => calcScore_nonneg h v⟩
  · intro h d kw hdesc hkw hnot
    rcases hv with rfl | rfl | rfl | rfl
    · have hall : ∀ kw' ∈ versionKeywords "8",
          kw'.toList.map Char.toLower = kw'.toList ∧
          ∀ kw'' ∈ versionKeywords "8", kw'' ≠ kw' →
            spanFree kw''.toList kw'.toList = true ∧
              containsSub kw''.toList kw'.toList = false := by decide
      exact descScore_incr_case "8" kw h d hdesc hkw (by decide) (hall kw hkw).1
        (hall kw hkw).2 hnot
    · have hall : ∀ kw' ∈ versionKeywords "11",
          kw'.toList.map Char.toLower = kw'.toList ∧
          ∀ kw'' ∈ versionKeywords "11", kw'' ≠ kw' →
            spanFree kw''.toList kw'.toList = true ∧
              containsSub kw''.toList kw'.toList = false := by decide
      exact descScore_incr_case "11" kw h d hdesc hkw (by decide) (hall kw hkw).1
        (hall kw hkw).2 hnot
    · have hall : ∀ kw' ∈ versionKeywords "17",
          kw'.toList.map Char.toLower = kw'.toList ∧
          ∀ kw'' ∈ versionKeywords "17", kw'' ≠ kw' →
            spanFree kw''.toList kw'.toList = true ∧
              containsSub kw''.toList kw'.toList = false := by decide
      exact descScore_incr_case "17" kw h d hdesc hkw (by decide) (hall kw hkw).1
        (hall kw hkw).2 hnot
    · have hall : ∀ kw' ∈ versionKeywords "21",
          kw'.toList.map Char.toLower = kw'.toList ∧
          ∀ kw'' ∈ versionKeywords "21", kw'' ≠ kw' →
            spanFree kw''.toList kw'.toList = true ∧
              containsSub kw''.toList kw'.toList = false := by decide
      exact descScore_incr_case "21" kw h d hdesc hkw (by decide) (hall kw hkw).1
        (hall kw hkw).2 hnot
  · intro h t tv hmem hlow hnotin
    rcases hv with rfl | rfl | rfl | rfl <;>
      exact topicScore_incr_case _ tv h t hmem (by decide) hlow hnotin

/-- Witness for C3 on concrete inputs: version `"8"`, keyword
`"lambda"` appended to the description, topic variant `"Java8"`
added. -/
theorem c3_score_monotonic_witness :
    (("8" : String) = "8" ∨ ("8" : String) = "11" ∨ ("8" : String) = "17" ∨
      ("8" : String) = "21") ∧
      (sampleHit1.description = some "a demo" ∧
        "lambda" ∈ versionKeywords "8" ∧
        containsSub "lambda".toList (lowerStr "a demo") = false ∧
        calculateVersionScore
            { sampleHit1 with description := some ("a demo" ++ "lambda") } "8" =
          calculateVersionScore sampleHit1 "8" + 3) ∧
      ("java8" ∈ versionTopics "8" ∧
        lowerStr "Java8" = "java8".toList ∧
        "java8".toList ∉ sampleHit1.topics.map lowerStr ∧
        calculateVersionScore { sampleHit1 with topics := sampleHit1.topics ++ ["Java8"] }
            "8" = calculateVersionScore sampleHit1 "8" + 5) ∧
      0 ≤ calculateVersionScore sampleHit2 "8" := by
  have h := c3_score_monotonic "8" (Or.inl rfl)
  exact ⟨Or.inl rfl,
    ⟨rfl, by decide, by decide,
      h.1 sampleHit1 "a demo" "lambda" rfl (by decide) (by decide)⟩,
    ⟨by decide, by decide, by decide,
      h.2.1 sampleHit1 "Java8" "java8" (by decide) (by decide) (by decide)⟩,
    h.2.2 sampleHit2⟩

/-- C5: every query string generated by the version-targeted query
builder contains at most 5 OR-joined alternatives (at most 4 `OR`
operators). -/
theorem c5_or_limit (javaVersion : String) (stars : Option Int) (buildTool : String)
    (q : String) (hq : q ∈ versionQueries javaVersion stars buildTool) :
    countORAux q.toList + 1 ≤ 5 := by
  have hbase := baseQuery_noO stars buildTool
  unfold versionQueries at hq
  split_ifs at hq
  · simp only [List.mem_cons, List.not_mem_nil, or_false] at hq
    rcases hq with rfl | rfl | rfl | rfl <;>
      · rw [string_toList_append, countORAux_append _ _ hbase]
        decide
  · simp only [List.mem_cons, List.not_mem_nil, or_false] at hq
    rcases hq with rfl | rfl | rfl <;>
      · rw [string_toList_append, countORAux_append _ _ hbase]
        decide
  · simp only [List.mem_cons, List.not_mem_nil, or_false] at hq
    rcases hq with rfl | rfl | rfl <;>
      · rw [string_toList_append, countORAux_append _ _ hbase]
        decide
  · simp only [List.mem_cons, List.not_mem_nil, or_false] at hq
    rcases hq with rfl | rfl | rfl <;>
      · rw [string_toList_append, countORAux_append _ _ hbase]
        decide
  · simp at hq

/-- Witness for C5 on a concrete query of the version-8 group with a
stars threshold and a build-tool hint. -/
theorem c5_or_limit_witness :
    (baseQuery (some 100) "maven" ++ " (java 8 OR java8 OR jdk8 OR \"1.8\")" ∈
        versionQueries "8" (some 100) "maven") ∧
      countORAux (baseQuery (some 100) "maven" ++
          " (java 8 OR java8 OR jdk8 OR \"1.8\")").toList + 1 ≤ 5 :=
  ⟨by decide, c5_or_limit "8" (some 100) "maven" _ (by decide)⟩

/-- C6: an unsupported Java version yields an empty query set, an
empty result list and no provider search call - a silent no-op rather
than an error. -/
theorem c6_unsupported_version (javaVersion buildTool : String) (stars : Option Int)
    (maxResults : Nat) (f : Fetchers) (provider : String → Except Unit (List JHit))
    (h8 : javaVersion ≠ "8") (h11 : javaVersion ≠ "11") (h17 : javaVersion ≠ "17")
    (h21 : javaVersion ≠ "21") :
    versionQueries javaVersion stars buildTool = [] ∧
      search_java_version_repos javaVersion buildTool stars maxResults f provider = [] ∧
      javaSearchCalls javaVersion buildTool stars maxResults f provider = [] := by
  have hq : versionQueries javaVersion stars buildTool = [] := by
    simp [versionQueries, h8, h11, h17, h21]
  refine ⟨hq, ?_, ?_⟩
  · unfold search_java_version_repos javaEncounters javaAgg
    rw [hq]
    simp [runQueries, sortDesc]
  · unfold javaSearchCalls javaAgg
    rw [hq]
    simp [runQueries]

/-- Witness for C6 at the unsupported version string `"9"`. -/
theorem c6_unsupported_version_witness :
    (("9" : String) ≠ "8" ∧ ("9" : String) ≠ "11" ∧ ("9" : String) ≠ "17" ∧
      ("9" : String) ≠ "21") ∧
      versionQueries "9" none "" = [] ∧
      search_java_version_repos "9" "" none 5 sampleFetchers sampleProvider = [] ∧
      javaSearchCalls "9" "" none 5 sampleFetchers sampleProvider = [] :=
  ⟨⟨by decide, by decide, by decide, by decide⟩,
   c6_unsupported_version "9" "" none 5 sampleFetchers sampleProvider
     (by decide) (by decide) (by decide) (by decide)⟩

/-- C7: for criteria freeText "parser", language "Rust", minStars 100
(forks and topics absent) the generic query builder produces exactly
the one query string "parser language:Rust stars:>100". -/
theorem c7_generic_query_example :
    buildSearchQuery "parser" (some "Rust") none (some 100) none =
        "parser language:Rust stars:>100" ∧
      searchReposCalls "parser" (some "Rust") none (some 100) none =
        ["parser language:Rust stars:>100"] := by
  constructor
  · rfl
  · rfl

theorem collectRepos_congr (f g : Fetchers) (cap : Nat) (hits : List JHit)
    (acc : List RepoInfo)
    (hagree : ∀ h ∈ hits, repoInfo g h = repoInfo f h) :
    collectRepos g cap hits acc = collectRepos f cap hits acc := by
  induction hits generalizing acc with
  | nil => rfl
  | cons h rest ih =>
    rw [collectRepos, collectRepos]
    split
    · rfl
    · rw [hagree h (List.mem_cons_self _ _)]
      exact ih _ (fun x hx => hagree x (List.mem_cons_of_mem _ hx))

/-- C8: per-record enrichment is per-field fault-tolerant: a failing
contributor-count lookup for the one hit `h0` gives that record
`contributors = 0` and changes nothing else; commit count, license and
last-commit metadata degrade to their own sentinels the same way; and
records of other hits are entirely unaffected, on the result-list
level as well. -/
theorem c8_field_fault_tolerance (f : Fetchers) (h0 : JHit) :
    repoInfo (failContributors f h0) h0 = { repoInfo f h0 with contributors := 0 } ∧
      repoInfo (failCommits f h0) h0 = { repoInfo f h0 with commits := 0 } ∧
      repoInfo (failLicense f h0) h0 = { repoInfo f h0 with license := "No license" } ∧
      repoInfo (failLastCommit f h0) h0 =
        { repoInfo f h0 with
            lastCommitDate := "Unknown"
            lastCommitAuthor := "Unknown"
            lastCommitMessage := "Unable to fetch commit info" } ∧
      (∀ h : JHit, h ≠ h0 →
        repoInfo (failContributors f h0) h = repoInfo f h ∧
          repoInfo (failCommits f h0) h = repoInfo f h ∧
          repoInfo (failLicense f h0) h = repoInfo f h ∧
          repoInfo (failLastCommit f h0) h = repoInfo f h) ∧
      ∀ (cap : Nat) (hits : List JHit), h0 ∉ hits →
        collectRepos (failContributors f h0) cap hits [] =
          collectRepos f cap hits [] := by
  have hpt : ∀ h : JHit, h ≠ h0 →
      repoInfo (failContributors f h0) h = repoInfo f h ∧
        repoInfo (failCommits f h0) h = repoInfo f h ∧
        repoInfo (failLicense f h0) h = repoInfo f h ∧
        repoInfo (failLastCommit f h0) h = repoInfo f h := by
    intro h hne
    refine ⟨?_, ?_, ?_, ?_⟩ <;>
      simp [repoInfo, failContributors, failCommits, failLicense, failLastCommit, hne]
  refine ⟨?_, ?_, ?_, ?_, hpt, ?_⟩
  · simp [repoInfo, failContributors]
  · simp [repoInfo, failCommits]
  · simp [repoInfo, failLicense]
  · simp [repoInfo, failLastCommit]
  · intro cap hits hmem
    exact collectRepos_congr f (failContributors f h0) cap hits []
      (fun h hh => (hpt h (fun he => hmem (he ▸ hh))).1)

/-- Witness for C8 on concrete inputs: failing the contributor lookup
for `sampleHit1` zeroes exactly the contributor count of that record
and leaves the record of `sampleHit2` untouched. -/
theorem c8_field_fault_tolerance_witness :
    repoInfo (failContributors sampleFetchers sampleHit1) sampleHit1 =
        { repoInfo sampleFetchers sampleHit1 with contributors := 0 } ∧
      (sampleHit2 ≠ sampleHit1) ∧
      repoInfo (failContributors sampleFetchers sampleHit1) sampleHit2 =
        repoInfo sampleFetchers sampleHit2 :=
  ⟨(c8_field_fault_tolerance sampleFetchers sampleHit1).1,
   by decide,
   ((c8_field_fault_tolerance sampleFetchers sampleHit1).2.2.2.2.1 sampleHit2
     (by decide)).1⟩

/-- C9: the `analyze_repo` marker-file inspection.  First conjunct -
the code bug: with `pom.xml` present and a `package.json` whose
content contains the word `dependencies` (as every real dependency
manifest does), the dependencies inspection indexes the decoded
*string* with a string key, the `TypeError` reaches the outer handler
and the whole analysis degenerates to the empty dictionary, discarding
even the detected build tools - the inspection failure IS fatal to the
analysis.  Second conjunct - the example of the claim, which holds:
with none of the three marker files present, the analysis succeeds
with `build_tools = []` and `frameworks = []`. -/
theorem c9_analysis_fatality :
    analyze_repo envBug "ownerX/repoY" "https://host/ownerX/repoY" (some "Java") [] =
        none ∧
      analyze_repo envAbsent "ownerX/repoY" "https://host/ownerX/repoY" none [] =
        some { name := "ownerX/repoY", url := "https://host/ownerX/repoY",
               buildTools := [], frameworks := [], language := none, topics := [] } := by
  constructor
  · rfl
  · rfl
